/-
  Verification of the mtg-proxies core against its specification.

  Shallow embedding of:
  - scryfall/scryfall.py: get_cards, get_card, recommend_print (score, "best"
    and "all" modes),
  - mtgproxies/decklists/decklist.py: parse_decklist_stream, Card/Comment
    formatting.

  Python raising behaviour is modelled with Option/Except; machine integers
  are Nat (Python ints are unbounded, all quantities here are nonnegative).
-/
import Mathlib

/-! ## Card records

The scorer and formatter read a fixed set of fields from the schema-flexible
Scryfall card record.  `CardRec` is the typed view of exactly those fields.
`frame_effects` is optional in the dataset, hence `Option`. -/

structure CardRec where
  name : String
  set : String
  frame : String
  digital : Bool
  border_color : String
  frame_effects : Option (List String)
  collector_number : String
  nonfoil : Bool
  highres_image : Bool
  lang : String
deriving DecidableEq, Repr

/-- Python `x not in ["p", "s"]` test on the last collector-number character. -/
def notPromoSuffix (c : Char) : Bool := !(['p', 's'].contains c)

/-- Python `"frame_effects" not in card or "extendedart" not in card["frame_effects"]`. -/
def frameNotExtended : Option (List String) → Bool
  | none => true
  | some fx => !(fx.contains "extendedart")

/-- The local `score` function of `recommend_print` (scryfall.py lines 205-224),
translated clause by clause.  `card["collector_number"][-1]` raises IndexError
on an empty string, modelled by `none`. -/
def score (card : CardRec) : Option Nat :=
  match card.collector_number.data.getLast? with
  | none => none
  | some lastc =>
    let points : Nat := 0
    let points := if card.set != "mb1" then points + 1 else points
    let points := if card.frame == "2015" then points + 2 else points
    let points := if !card.digital then points + 4 else points
    let points := if card.border_color == "black" && frameNotExtended card.frame_effects
      then points + 8 else points
    let points := if notPromoSuffix lastc && card.nonfoil then points + 16 else points
    let points := if card.highres_image then points + 32 else points
    let points := if card.lang == "en" then points + 64 else points
    some points

/-! ## Spec-side scorer

The criteria of the specification table (section 4.2), indexed 0..6 in the
order listed, with weight 2^i.  `specScore` is the sum of the seven weighted
criteria, written from the words of the spec for comparison with `score`. -/

/-- Criterion i of the spec table; indices outside 0..6 are unused (false). -/
def crit (c : CardRec) : Nat → Bool
  | 0 => c.set != "mb1"
  | 1 => c.frame == "2015"
  | 2 => !c.digital
  | 3 => c.border_color == "black" && frameNotExtended c.frame_effects
  | 4 => (match c.collector_number.data.getLast? with
          | some l => notPromoSuffix l
          | none => false) && c.nonfoil
  | 5 => c.highres_image
  | 6 => c.lang == "en"
  | _ => false

/-- Weight of criterion i in the spec table. -/
def weight (i : Nat) : Nat := 2 ^ i

/-- Sum of the seven tabulated weighted criteria (spec section 4.2). -/
def specScore (c : CardRec) : Nat :=
  (if crit c 0 then 1 else 0) + (if crit c 1 then 2 else 0) + (if crit c 2 then 4 else 0) +
  (if crit c 3 then 8 else 0) + (if crit c 4 then 16 else 0) + (if crit c 5 then 32 else 0) +
  (if crit c 6 then 64 else 0)

lemma getLast?_of_ne_empty {s : String} (h : s ≠ "") : ∃ c, s.data.getLast? = some c := by
  cases hs : s.data with
  | nil =>
    exfalso
    apply h
    cases s
    simp at hs
    simp [hs]
  | cons a l =>
    exact ⟨(a :: l).getLast (by simp), by simp [hs, List.getLast?_eq_getLast]⟩

/-- The source scorer computes exactly the spec-side sum of weighted criteria
whenever the collector number is nonempty (shared helper). -/
lemma score_eq_specScore (c : CardRec) (h : c.collector_number ≠ "") :
    score c = some (specScore c) := by
  obtain ⟨lc, hlc⟩ := getLast?_of_ne_empty h
  unfold score specScore crit
  rw [hlc]
  cases h0 : (c.set != "mb1") <;>
    cases h1 : (c.frame == "2015") <;>
    cases h2 : (!c.digital) <;>
    cases h3 : (c.border_color == "black" && frameNotExtended c.frame_effects) <;>
    cases h4 : (notPromoSuffix lc && c.nonfoil) <;>
    cases h5 : c.highres_image <;>
    cases h6 : (c.lang == "en") <;>
    simp [h0, h1, h2, h3, h4, h5, h6]

/-- The example card of the spec (section 8): set "mb1", all other criteria
satisfied. -/
def exampleCardA : CardRec :=
  { name := "A", set := "mb1", frame := "2015", digital := false,
    border_color := "black", frame_effects := some [], collector_number := "123",
    nonfoil := true, highres_image := true, lang := "en" }

/-- C1: for every card record (with the nonempty collector number the source
indexing presupposes) the print score equals the sum of exactly the seven
tabulated weighted criteria, and the example card of the spec scores 126. -/
theorem score_is_sum_of_seven_criteria :
    (∀ c : CardRec, c.collector_number ≠ "" → score c = some (specScore c))
    ∧ score exampleCardA = some 126 := by
  constructor
  · exact score_eq_specScore
  · decide

/-- Witness for C1: the hypothesis holds at the example card, where the score
evaluates to 126 = 0+2+4+8+16+32+64. -/
theorem score_is_sum_of_seven_criteria_witness :
    exampleCardA.collector_number ≠ "" ∧ score exampleCardA = some (specScore exampleCardA)
    ∧ specScore exampleCardA = 126 :=
  ⟨by decide, score_is_sum_of_seven_criteria.1 exampleCardA (by decide), by decide⟩

lemma specScore_flip (c c' : CardRec) (i : Nat) (hi : i < 7)
    (hflip : crit c i = false) (hflip' : crit c' i = true)
    (hfix : ∀ j, j < 7 → j ≠ i → crit c' j = crit c j) :
    specScore c' = specScore c + weight i := by
  unfold specScore weight
  interval_cases i
  · rw [hfix 1 (by omega) (by omega), hfix 2 (by omega) (by omega), hfix 3 (by omega) (by omega),
      hfix 4 (by omega) (by omega), hfix 5 (by omega) (by omega), hfix 6 (by omega) (by omega),
      hflip, hflip']
    simp <;> omega
  · rw [hfix 0 (by omega) (by omega), hfix 2 (by omega) (by omega), hfix 3 (by omega) (by omega),
      hfix 4 (by omega) (by omega), hfix 5 (by omega) (by omega), hfix 6 (by omega) (by omega),
      hflip, hflip']
    simp <;> omega
  · rw [hfix 0 (by omega) (by omega), hfix 1 (by omega) (by omega), hfix 3 (by omega) (by omega),
      hfix 4 (by omega) (by omega), hfix 5 (by omega) (by omega), hfix 6 (by omega) (by omega),
      hflip, hflip']
    simp <;> omega
  · rw [hfix 0 (by omega) (by omega), hfix 1 (by omega) (by omega), hfix 2 (by omega) (by omega),
      hfix 4 (by omega) (by omega), hfix 5 (by omega) (by omega), hfix 6 (by omega) (by omega),
      hflip, hflip']
    simp <;> omega
  · rw [hfix 0 (by omega) (by omega), hfix 1 (by omega) (by omega), hfix 2 (by omega) (by omega),
      hfix 3 (by omega) (by omega), hfix 5 (by omega) (by omega), hfix 6 (by omega) (by omega),
      hflip, hflip']
    simp <;> omega
  · rw [hfix 0 (by omega) (by omega), hfix 1 (by omega) (by omega), hfix 2 (by omega) (by omega),
      hfix 3 (by omega) (by omega), hfix 4 (by omega) (by omega), hfix 6 (by omega) (by omega),
      hflip, hflip']
    simp <;> omega
  · rw [hfix 0 (by omega) (by omega), hfix 1 (by omega) (by omega), hfix 2 (by omega) (by omega),
      hfix 3 (by omega) (by omega), hfix 4 (by omega) (by omega), hfix 5 (by omega) (by omega),
      hflip, hflip']
    simp <;> omega

/-- C9: flipping any single one of the seven criteria from unsatisfied to
satisfied, holding the truth values of the other six fixed, strictly increases
the score by exactly that criterion weight (1, 2, 4, 8, 16, 32, 64 for
criteria 0..6 respectively). -/
theorem score_monotone_per_axis (c c' : CardRec) (i : Nat) (hi : i < 7)
    (h1 : c.collector_number ≠ "") (h2 : c'.collector_number ≠ "")
    (hflip : crit c i = false) (hflip' : crit c' i = true)
    (hfix : ∀ j, j < 7 → j ≠ i → crit c' j = crit c j) :
    ∃ n, score c = some n ∧ score c' = some (n + weight i) ∧ n < n + weight i := by
  refine ⟨specScore c, score_eq_specScore c h1, ?_, ?_⟩
  · rw [score_eq_specScore c' h2, specScore_flip c c' i hi hflip hflip' hfix]
  · have : 0 < weight i := Nat.pos_pow_of_pos i (by omega)
    omega

/-- Witness for C9: flipping the language criterion (index 6) on the example
card increases the score by exactly 64. -/
theorem score_monotone_per_axis_witness :
    ∃ n, score { exampleCardA with lang := "de" } = some n
      ∧ score exampleCardA = some (n + weight 6) ∧ n < n + weight 6 :=
  score_monotone_per_axis { exampleCardA with lang := "de" } exampleCardA 6
    (by decide) (by decide) (by decide) (by decide) (by decide)
    (by decide)

/-! ## Card Database (scryfall.py get_cards / get_card)

The database rows are schema-flexible string-keyed mappings; `get_cards`
filters them by conjunctive, case-insensitive field equality.  A row is
modelled as an association list of string fields (first binding wins, as for
a Python dict there is at most one binding per key).  The keyword arguments
of `get_cards` are modelled as a list of (key, optional value) pairs; a
`none` value is an ignored filter, as in the source. -/

abbrev SRecord := List (String × String)

/-- ASCII case table for the Python `str.lower` calls of `get_cards`
(the case-insensitive comparison of the spec), written so that it reduces
inside the kernel. -/
def asciiCasePairs : List (Char × Char) :=
  [('A', 'a'), ('B', 'b'), ('C', 'c'), ('D', 'd'), ('E', 'e'), ('F', 'f'), ('G', 'g'),
   ('H', 'h'), ('I', 'i'), ('J', 'j'), ('K', 'k'), ('L', 'l'), ('M', 'm'), ('N', 'n'),
   ('O', 'o'), ('P', 'p'), ('Q', 'q'), ('R', 'r'), ('S', 's'), ('T', 't'), ('U', 'u'),
   ('V', 'v'), ('W', 'w'), ('X', 'x'), ('Y', 'y'), ('Z', 'z')]

/-- Lowercase one character (ASCII model of Python `str.lower`). -/
def lowerChar (c : Char) : Char :=
  ((asciiCasePairs.find? (fun p => p.1 == c)).map (fun p => p.2)).getD c

/-- Lowercase a string (ASCII model of Python `str.lower`). -/
def strLower (s : String) : String := String.mk (s.data.map lowerChar)

/-- Uppercase one character (ASCII model of Python `str.upper`). -/
def upperChar (c : Char) : Char :=
  ((asciiCasePairs.find? (fun p => p.2 == c)).map (fun p => p.1)).getD c

/-- Uppercase a string (ASCII model of Python `str.upper`, used by the arena
formatter). -/
def strUpper (s : String) : String := String.mk (s.data.map upperChar)

/-- Python `card[key]` guarded by `key in card`: first binding of the key. -/
def recLookup (card : SRecord) (key : String) : Option String :=
  (card.find? (fun kv => kv.1 == key)).map (fun kv => kv.2)

/-- One step of the filtering loop of `get_cards` (scryfall.py lines 189-192):
`key in card and card[key].lower() == value.lower()`. -/
def filterStep (key value : String) (cards : List SRecord) : List SRecord :=
  cards.filter (fun card =>
    match recLookup card key with
    | some v => strLower v == strLower value
    | none => false)

/-- Function `get_cards` (scryfall.py lines 175-194): fold the non-absent filters over
the database. -/
def get_cards (db : List SRecord) (filters : List (String × Option String)) : List SRecord :=
  filters.foldl (fun cards kv =>
    match kv.2 with
    | none => cards
    | some v => filterStep kv.1 v cards) db

/-- Function `get_card` (scryfall.py lines 157-172): first match or none. -/
def get_card (db : List SRecord) (cardName : String) (setId collectorNumber : Option String) :
    Option SRecord :=
  (get_cards db [("name", some cardName), ("set", setId),
                 ("collector_number", collectorNumber)]).head?

/-- Spec-side single-pass conjunctive filter: a record passes when every
non-absent filter finds its field present with a case-insensitively equal
value. -/
def matchesAll (filters : List (String × Option String)) (card : SRecord) : Bool :=
  filters.all (fun kv =>
    match kv.2 with
    | none => true
    | some v =>
      match recLookup card kv.1 with
      | some w => strLower w == strLower v
      | none => false)

lemma get_cards_cons (db : List SRecord) (kv : String × Option String)
    (fs : List (String × Option String)) :
    get_cards db (kv :: fs) =
      get_cards (match kv.2 with | none => db | some v => filterStep kv.1 v db) fs := by
  cases kv with
  | mk k v? => cases v? <;> simp [get_cards]

/-- Folding the filters one by one filters once by the conjunction
(shared helper). -/
lemma get_cards_eq_filter (db : List SRecord) (filters : List (String × Option String)) :
    get_cards db filters = db.filter (matchesAll filters) := by
  induction filters generalizing db with
  | nil =>
    have hm : matchesAll [] = fun _ : SRecord => true := by
      funext card
      simp [matchesAll]
    simp [get_cards, hm, List.filter_true]
  | cons kv fs ih =>
    rw [get_cards_cons, ih]
    cases hv : kv.2 with
    | none =>
      apply List.filter_congr
      intro card _
      simp [matchesAll, hv]
    | some v =>
      simp only [filterStep, List.filter_filter]
      apply List.filter_congr
      intro card _
      simp only [matchesAll, List.all_cons, hv, Bool.and_comm]

lemma matchesAll_iff (filters : List (String × Option String)) (card : SRecord) :
    matchesAll filters card = true ↔
      ∀ kv ∈ filters, ∀ v, kv.2 = some v →
        ∃ w, recLookup card kv.1 = some w ∧ strLower w = strLower v := by
  simp only [matchesAll, List.all_eq_true]
  constructor
  · intro h kv hkv v hv
    have hm := h kv hkv
    rw [hv] at hm
    cases hw : recLookup card kv.1 with
    | none => rw [hw] at hm; simp at hm
    | some w =>
      rw [hw] at hm
      simp only [beq_iff_eq] at hm
      exact ⟨w, rfl, hm⟩
  · intro h kv hkv
    cases hv : kv.2 with
    | none => simp
    | some v =>
      obtain ⟨w, hw, he⟩ := h kv hkv v hv
      rw [hw]
      simp [he]

/-- C5: `get_cards` returns exactly the database records passing every
non-absent filter, where passing means the field is present with a
case-insensitively equal value (records lacking the field are excluded,
absent filters ignored); the result is a plain (possibly empty) list, and
`get_card` is its first element or none. -/
theorem get_cards_conjunctive_case_insensitive (db : List SRecord)
    (filters : List (String × Option String)) :
    get_cards db filters = db.filter (matchesAll filters)
    ∧ (∀ card, card ∈ get_cards db filters ↔ card ∈ db ∧
        ∀ kv ∈ filters, ∀ v, kv.2 = some v →
          ∃ w, recLookup card kv.1 = some w ∧ strLower w = strLower v)
    ∧ (∀ cardName setId cn,
        get_cards db [("name", some cardName), ("set", setId), ("collector_number", cn)] = [] →
        get_card db cardName setId cn = none)
    ∧ (∀ cardName setId cn c rest,
        get_cards db [("name", some cardName), ("set", setId), ("collector_number", cn)]
          = c :: rest →
        get_card db cardName setId cn = some c) := by
  refine ⟨get_cards_eq_filter db filters, ?_, ?_, ?_⟩
  · intro card
    rw [get_cards_eq_filter, List.mem_filter, matchesAll_iff]
  · intro cardName setId cn h
    simp [get_card, h]
  · intro cardName setId cn c rest h
    simp [get_card, h]

def dbRowCrypt : SRecord :=
  [("name", "Blood Crypt"), ("set", "rna"), ("collector_number", "245")]

def dbRowIsland : SRecord := [("name", "Island"), ("set", "mir")]

/-- Witness for C5: on a two-record database, a record matching the
case-insensitive name query is returned first by `get_card`. -/
theorem get_cards_conjunctive_case_insensitive_witness :
    get_card [dbRowCrypt, dbRowIsland] "blood crypt" none none = some dbRowCrypt :=
  (get_cards_conjunctive_case_insensitive [dbRowCrypt, dbRowIsland] []).2.2.2
    "blood crypt" none none dbRowCrypt [] (by decide)

/-! ## Print Recommender (scryfall.py recommend_print, lines 197-245)

`current` is the result of the `get_card` lookup (none when set or collector
number is missing or the lookup found nothing); `alternatives` is the result
of the `get_cards` query, given here as the typed view of the records.
Python operations that can raise (`list.index`, `np.max` and `np.argmax` on
an empty sequence, the scorer on an empty collector number) are modelled
with `Option`, and the two mode branches return `Except Unit _` where
`Except.error ()` is an uncaught Python exception. -/

/-- Python `list.index`: index of the first element equal to `a` (none models
the ValueError on a missing element). -/
def pyIndex {α : Type} [DecidableEq α] (a : α) : List α → Option Nat
  | [] => none
  | b :: l => if b = a then some 0 else (pyIndex a l).map (fun i => i + 1)

/-- Model of `np.max` of a list of scores (none models the error on an empty list). -/
def npMax : List Nat → Option Nat
  | [] => none
  | x :: l => some (l.foldl Nat.max x)

/-- Model of `np.argmax`: index of the first occurrence of the maximum (none models
the error on an empty list). -/
def npArgmax (l : List Nat) : Option Nat :=
  match npMax l with
  | none => none
  | some m => pyIndex m l

/-- The list comprehension `[score(card) for card in alternatives]`; none
when some score raises. -/
def mapScores : List CardRec → Option (List Nat)
  | [] => some []
  | c :: l =>
    match score c, mapScores l with
    | some s, some rest => some (s :: rest)
    | _, _ => none

/-- The expression `alternatives[np.argmax(scores)]`, the shared tail of the "best" branch. -/
def pickBest (alts : List CardRec) (scores : List Nat) : Except Unit (Option CardRec) :=
  match npArgmax scores with
  | none => Except.error ()
  | some j =>
    match alts[j]? with
    | some r => Except.ok (some r)
    | none => Except.error ()

/-- The `mode == "best"` branch of `recommend_print` (lines 228-234). -/
def recommend_best (current : Option CardRec) (alts : List CardRec) :
    Except Unit (Option CardRec) :=
  match mapScores alts with
  | none => Except.error ()
  | some scores =>
    match current with
    | none => pickBest alts scores
    | some cur =>
      match pyIndex cur alts with
      | none => Except.error ()
      | some i =>
        match scores[i]?, npMax scores with
        | some si, some m => if si = m then Except.ok none else pickBest alts scores
        | _, _ => Except.error ()

/-- Stable insertion of a (card, score) pair into a list sorted by ascending
score. -/
def insPair (x : CardRec × Nat) : List (CardRec × Nat) → List (CardRec × Nat)
  | [] => [x]
  | y :: l => if x.2 ≤ y.2 then x :: y :: l else y :: insPair x l

/-- Stable sort of (card, score) pairs by ascending score.  This models
`np.array(alternatives)[np.argsort(scores)]`: the application of an
ascending argsort permutation to the alternatives (the tie order of
`np.argsort` is unspecified; the model fixes the stable one). -/
def sortPairs : List (CardRec × Nat) → List (CardRec × Nat)
  | [] => []
  | x :: l => insPair x (sortPairs l)

/-- The `mode == "all"` branch of `recommend_print` (lines 235-245):
sort by score descending, then move the current print (if known) to the front. -/
def recommend_all (current : Option CardRec) (alts : List CardRec) :
    Except Unit (List CardRec) :=
  match mapScores alts with
  | none => Except.error ()
  | some scores =>
    let recs := ((sortPairs (alts.zip scores)).map Prod.fst).reverse
    match current with
    | some cur => Except.ok (cur :: recs.erase cur)
    | none => Except.ok recs

lemma pyIndex_spec {α : Type} [DecidableEq α] {a : α} {l : List α} (h : a ∈ l) :
    ∃ i, pyIndex a l = some i ∧ l[i]? = some a := by
  induction l with
  | nil => cases h
  | cons b l ih =>
    by_cases hb : b = a
    · exact ⟨0, by simp [pyIndex, hb], by simp [hb]⟩
    · have hmem : a ∈ l := by
        cases h with
        | head => exact absurd rfl hb
        | tail _ h => exact h
      obtain ⟨i, hi, hg⟩ := ih hmem
      exact ⟨i + 1, by simp [pyIndex, hb, hi], by simpa using hg⟩

lemma mapScores_length {l : List CardRec} {s : List Nat} (h : mapScores l = some s) :
    s.length = l.length := by
  induction l generalizing s with
  | nil => simp [mapScores] at h; simp [← h]
  | cons c l ih =>
    simp only [mapScores] at h
    cases hc : score c with
    | none => rw [hc] at h; cases h
    | some v =>
      rw [hc] at h
      cases hm : mapScores l with
      | none => rw [hm] at h; cases h
      | some rest =>
        rw [hm] at h
        cases h
        simp [ih hm]

lemma mapScores_get {l : List CardRec} {s : List Nat} (h : mapScores l = some s) :
    ∀ (i : Nat) (c : CardRec), l[i]? = some c → s[i]? = score c := by
  induction l generalizing s with
  | nil => intro i c hi; simp at hi
  | cons c0 l ih =>
    simp only [mapScores] at h
    cases hc : score c0 with
    | none => rw [hc] at h; cases h
    | some v =>
      rw [hc] at h
      cases hm : mapScores l with
      | none => rw [hm] at h; cases h
      | some rest =>
        rw [hm] at h
        cases h
        intro i c hi
        cases i with
        | zero => simp at hi; simp [← hi, hc]
        | succ i => simp at hi ⊢; exact ih hm i c hi

lemma mapScores_get_rev {l : List CardRec} {s : List Nat} (h : mapScores l = some s) :
    ∀ (i v : Nat), s[i]? = some v → ∃ c, l[i]? = some c ∧ score c = some v := by
  induction l generalizing s with
  | nil =>
    intro i v hi
    simp [mapScores] at h
    subst h
    simp at hi
  | cons c0 l ih =>
    simp only [mapScores] at h
    cases hc : score c0 with
    | none => rw [hc] at h; cases h
    | some w =>
      rw [hc] at h
      cases hm : mapScores l with
      | none => rw [hm] at h; cases h
      | some rest =>
        rw [hm] at h
        cases h
        intro i v hi
        cases i with
        | zero => simp at hi; exact ⟨c0, by simp, by rw [hc, hi]⟩
        | succ i =>
          simp at hi ⊢
          obtain ⟨c, hc1, hc2⟩ := ih hm i v hi
          exact ⟨c, hc1, hc2⟩

lemma le_foldl_max {l : List Nat} : ∀ {x y : Nat}, (y ≤ x ∨ y ∈ l) → y ≤ l.foldl Nat.max x := by
  induction l with
  | nil =>
    intro x y h
    rcases h with h | h
    · simpa using h
    · cases h
  | cons z l ih =>
    intro x y h
    simp only [List.foldl_cons]
    rcases h with h | h
    · exact ih (Or.inl (le_trans h (Nat.le_max_left x z)))
    · rcases List.mem_cons.mp h with h | h
      · exact ih (Or.inl (h ▸ Nat.le_max_right x z))
      · exact ih (Or.inr h)

lemma foldl_max_mem (l : List Nat) : ∀ x, l.foldl Nat.max x = x ∨ l.foldl Nat.max x ∈ l := by
  induction l with
  | nil => intro x; simp
  | cons z l ih =>
    intro x
    simp only [List.foldl_cons]
    rcases ih (Nat.max x z) with h | h
    · rcases Nat.le_total x z with hxz | hxz
      · right
        have hm : Nat.max x z = z := Nat.max_eq_right hxz
        rw [h, hm]
        exact List.mem_cons_self z l
      · left
        have hm : Nat.max x z = x := Nat.max_eq_left hxz
        rw [h, hm]
    · right; exact List.mem_cons_of_mem z h

lemma npMax_mem {l : List Nat} {m : Nat} (h : npMax l = some m) : m ∈ l := by
  cases l with
  | nil => cases h
  | cons x l =>
    simp only [npMax] at h
    cases h
    rcases foldl_max_mem l x with h | h
    · rw [h]; exact List.mem_cons_self x l
    · exact List.mem_cons_of_mem x h

lemma npMax_ge {l : List Nat} {m : Nat} (h : npMax l = some m) : ∀ y ∈ l, y ≤ m := by
  cases l with
  | nil => cases h
  | cons x l =>
    simp only [npMax] at h
    cases h
    intro y hy
    rcases List.mem_cons.mp hy with h | h
    · exact le_foldl_max (Or.inl (le_of_eq h))
    · exact le_foldl_max (Or.inr h)

lemma mem_of_getElem?_eq {α : Type} {l : List α} {i : Nat} {a : α} (h : l[i]? = some a) :
    a ∈ l := by
  induction l generalizing i with
  | nil => simp at h
  | cons b l ih =>
    cases i with
    | zero => simp at h; simp [h]
    | succ i =>
      simp at h
      exact List.mem_cons_of_mem b (ih h)

lemma getElem?_isSome_of_lt {α : Type} {l : List α} {i : Nat} (h : i < l.length) :
    ∃ a, l[i]? = some a := by
  induction l generalizing i with
  | nil => simp at h
  | cons b l ih =>
    cases i with
    | zero => exact ⟨b, by simp⟩
    | succ i =>
      obtain ⟨a, ha⟩ := ih (by simpa using h)
      exact ⟨a, by simpa using ha⟩

lemma getElem?_lt_length {α : Type} {l : List α} {i : Nat} {a : α} (h : l[i]? = some a) :
    i < l.length := by
  induction l generalizing i with
  | nil => simp at h
  | cons b l ih =>
    cases i with
    | zero => simp
    | succ i =>
      simp at h
      simpa using ih h

/-- C2: when the current print resolves and appears in the alternatives,
"best" mode returns none exactly when the score of the current print equals
the maximum score among the alternatives, and otherwise returns an
alternative of maximum score.  `m` is `np.max(scores)`, shown to be the
greatest element of `scores` by the last two conjuncts. -/
theorem recommend_best_keeps_or_improves (cur : CardRec) (alts : List CardRec)
    (scores : List Nat) (m : Nat)
    (hs : mapScores alts = some scores) (hmem : cur ∈ alts)
    (hm : npMax scores = some m) :
    (score cur = some m → recommend_best (some cur) alts = Except.ok none)
    ∧ (score cur ≠ some m →
        ∃ r, r ∈ alts ∧ recommend_best (some cur) alts = Except.ok (some r)
          ∧ score r = some m)
    ∧ m ∈ scores ∧ (∀ y ∈ scores, y ≤ m) := by
  obtain ⟨i, hidx, hget⟩ := pyIndex_spec hmem
  have hsi : scores[i]? = score cur := mapScores_get hs i cur hget
  have hbest : score cur ≠ some m →
      ∃ r, r ∈ alts ∧ recommend_best (some cur) alts = Except.ok (some r)
        ∧ score r = some m := by
    intro hne
    have hmm : m ∈ scores := npMax_mem hm
    obtain ⟨j, hj, hjget⟩ := pyIndex_spec hmm
    obtain ⟨r, hr, hrs⟩ := mapScores_get_rev hs j m hjget
    have hsc : ∃ sc, score cur = some sc := by
      obtain ⟨v, hv⟩ := getElem?_isSome_of_lt
        (by rw [mapScores_length hs]; exact getElem?_lt_length hget)
      exact ⟨v, by rw [← hsi, hv]⟩
    obtain ⟨sc, hsc⟩ := hsc
    refine ⟨r, mem_of_getElem?_eq hr, ?_, hrs⟩
    have hscm : sc ≠ m := fun h => hne (h ▸ hsc)
    simp only [recommend_best, hs, hidx, hsi, hsc, hm, if_neg hscm, pickBest, npArgmax,
      hj, hr]
  refine ⟨?_, hbest, npMax_mem hm, npMax_ge hm⟩
  · intro hcur
    simp [recommend_best, hs, hidx, hsi, hcur, hm]

def idealCard : CardRec := { exampleCardA with set := "xyz" }

/-- Witness for C2: with the current print scoring 126 and an alternative
scoring 127, "best" mode recommends the alternative of maximum score. -/
theorem recommend_best_keeps_or_improves_witness :
    ∃ r, r ∈ [exampleCardA, idealCard]
      ∧ recommend_best (some exampleCardA) [exampleCardA, idealCard] = Except.ok (some r)
      ∧ score r = some 127 :=
  (recommend_best_keeps_or_improves exampleCardA [exampleCardA, idealCard] [126, 127] 127
    (by decide) (by decide) (by decide)).2.1 (by decide)

lemma insPair_perm (x : CardRec × Nat) (l : List (CardRec × Nat)) :
    (insPair x l).Perm (x :: l) := by
  induction l with
  | nil => simp [insPair]
  | cons y l ih =>
    simp only [insPair]
    split
    · exact List.Perm.refl _
    · exact (ih.cons y).trans (List.Perm.swap x y l)

lemma sortPairs_perm (l : List (CardRec × Nat)) : (sortPairs l).Perm l := by
  induction l with
  | nil => simp [sortPairs]
  | cons x l ih => exact (insPair_perm x (sortPairs l)).trans (ih.cons x)

lemma insPair_sorted {x : CardRec × Nat} {l : List (CardRec × Nat)}
    (h : l.Pairwise (fun a b => a.2 ≤ b.2)) :
    (insPair x l).Pairwise (fun a b => a.2 ≤ b.2) := by
  induction l with
  | nil => simp [insPair]
  | cons y l ih =>
    rcases List.pairwise_cons.mp h with ⟨hy, hl⟩
    simp only [insPair]
    split
    · rename_i hxy
      refine List.pairwise_cons.mpr ⟨?_, h⟩
      intro b hb
      rcases List.mem_cons.mp hb with hb | hb
      · exact hb ▸ hxy
      · exact le_trans hxy (hy b hb)
    · rename_i hxy
      refine List.pairwise_cons.mpr ⟨?_, ih hl⟩
      intro b hb
      have hb2 : b ∈ x :: l := (insPair_perm x l).subset hb
      rcases List.mem_cons.mp hb2 with hb2 | hb2
      · subst hb2; omega
      · exact hy b hb2

lemma sortPairs_sorted (l : List (CardRec × Nat)) :
    (sortPairs l).Pairwise (fun a b => a.2 ≤ b.2) := by
  induction l with
  | nil => simp [sortPairs]
  | cons x l ih => exact insPair_sorted ih

lemma mapScores_zip {l : List CardRec} {s : List Nat} (h : mapScores l = some s) :
    ∀ p ∈ l.zip s, score p.1 = some p.2 := by
  induction l generalizing s with
  | nil => intro p hp; simp at hp
  | cons c l ih =>
    simp only [mapScores] at h
    cases hc : score c with
    | none => rw [hc] at h; cases h
    | some v =>
      rw [hc] at h
      cases hm : mapScores l with
      | none => rw [hm] at h; cases h
      | some rest =>
        rw [hm] at h
        cases h
        intro p hp
        rcases List.mem_cons.mp hp with hp | hp
        · subst hp; exact hc
        · exact ih hm p hp

/-- C3: in "all" mode with a known current print, the result starts with the
current print regardless of its score, and the remaining elements are the
other alternatives (one occurrence of the current print removed) in
descending score order. -/
theorem recommend_all_pins_current_first (cur : CardRec) (alts : List CardRec)
    (scores : List Nat) (hs : mapScores alts = some scores) :
    ∃ rest, recommend_all (some cur) alts = Except.ok (cur :: rest)
      ∧ rest.Perm (alts.erase cur)
      ∧ rest.Pairwise (fun a b => ∀ x y, score a = some x → score b = some y → y ≤ x) := by
  have hlen : alts.length ≤ scores.length := le_of_eq (mapScores_length hs).symm
  have hzip := mapScores_zip hs
  have hsortmem : ∀ p ∈ sortPairs (alts.zip scores), score p.1 = some p.2 :=
    fun p hp => hzip p ((sortPairs_perm (alts.zip scores)).subset hp)
  set recs := ((sortPairs (alts.zip scores)).map Prod.fst).reverse with hrecs
  have hperm : recs.Perm alts := by
    have h1 : ((sortPairs (alts.zip scores)).map Prod.fst).Perm
        ((alts.zip scores).map Prod.fst) := (sortPairs_perm (alts.zip scores)).map Prod.fst
    rw [List.map_fst_zip alts scores hlen] at h1
    exact (List.reverse_perm _).trans h1
  have hsorted : recs.Pairwise
      (fun a b => ∀ x y, score a = some x → score b = some y → y ≤ x) := by
    rw [hrecs, List.pairwise_reverse, List.pairwise_map]
    have := sortPairs_sorted (alts.zip scores)
    refine this.imp_of_mem ?_
    intro p q hp hq hle x y hx hy
    rw [hsortmem q hq] at hx
    rw [hsortmem p hp] at hy
    cases hx; cases hy
    exact hle
  refine ⟨recs.erase cur, ?_, hperm.erase cur, hsorted.sublist (List.erase_sublist cur recs)⟩
  simp only [recommend_all, hs]

/-- Witness for C3: with the current print first in the database order but
lowest in score, the current print is still pinned first. -/
theorem recommend_all_pins_current_first_witness :
    ∃ rest, recommend_all (some exampleCardA) [exampleCardA, idealCard]
        = Except.ok (exampleCardA :: rest)
      ∧ rest.Perm ([exampleCardA, idealCard].erase exampleCardA)
      ∧ rest.Pairwise (fun a b => ∀ x y, score a = some x → score b = some y → y ≤ x) :=
  recommend_all_pins_current_first exampleCardA [exampleCardA, idealCard] [126, 127]
    (by decide)

/-- Counterexample for C4: with zero alternatives, "best" mode does not
return none; `np.argmax` raises on an empty sequence (modelled by
`Except.error`). -/
theorem recommend_best_empty_raises :
    recommend_best none ([] : List CardRec) ≠ Except.ok none := by
  intro h
  simp [recommend_best, mapScores, pickBest, npArgmax, npMax] at h

/-- C4 (amended): with zero alternatives, "best" mode raises (`list.index`
or `np.argmax` on an empty sequence) whether or not a current print is
known, while "all" mode returns the current-only or empty sequence as
claimed. -/
theorem recommend_on_empty_alternatives :
    recommend_best none ([] : List CardRec) = Except.error ()
    ∧ (∀ cur : CardRec, recommend_best (some cur) [] = Except.error ())
    ∧ recommend_all none ([] : List CardRec) = Except.ok []
    ∧ (∀ cur : CardRec, recommend_all (some cur) [] = Except.ok [cur]) :=
  ⟨rfl, fun _ => rfl, rfl, fun _ => rfl⟩

/-! ## Decklist parser (decklist.py parse_decklist_stream, lines 114-148)

The source applies `re.search` with the pattern

  ([0-9]+)\s+(.+?)(?:\s+\((\S*)\)\s+(\S+))?\s*$

to each line.  The small engine below implements the Python backtracking
semantics for the constructs this pattern uses: character classes, greedy
and lazy repetition, a greedy optional group, capture groups and the
end-of-string anchor (which, as in Python, also matches just before a
final newline).  `re.search` tries start positions left to right.  Fuel
bounds repetition unfolding; every loop body consumes at least one
character, so fuel `length + 1` is never exhausted. -/

inductive RE where
  | cls (p : Char → Bool)
  | eps
  | cat (a b : RE)
  | alt (a b : RE)
  | star (a : RE)
  | starL (a : RE)
  | group (n : Nat) (a : RE)
  | eos

/-- Capture list: group number, span start, span end.  Later bindings win. -/
abbrev Caps := List (Nat × Nat × Nat)

def setCap (caps : Caps) (n s e : Nat) : Caps := (n, s, e) :: caps

/-- One level of the backtracking matcher, structurally recursive on the
pattern; `recur` re-enters the matcher at the next lower fuel level for
repetition unfolding.  Successes are explored in Python preference order:
greedy `star` tries the longest extension first, lazy `starL` the
shortest, `alt` its left branch first. -/
def reMStep (s : List Char)
    (recur : RE → Nat → Caps → (Nat → Caps → Option Caps) → Option Caps) :
    RE → Nat → Caps → (Nat → Caps → Option Caps) → Option Caps
  | RE.cls p, i, caps, k =>
    match s[i]? with
    | some c => if p c then k (i + 1) caps else none
    | none => none
  | RE.eps, i, caps, k => k i caps
  | RE.cat a b, i, caps, k =>
    reMStep s recur a i caps (fun j caps2 => reMStep s recur b j caps2 k)
  | RE.alt a b, i, caps, k =>
    match reMStep s recur a i caps k with
    | some r => some r
    | none => reMStep s recur b i caps k
  | RE.group n a, i, caps, k =>
    reMStep s recur a i caps (fun j caps2 => k j (setCap caps2 n i j))
  | RE.eos, i, caps, k =>
    if i = s.length ∨ (i + 1 = s.length ∧ s[i]? = some '\n') then k i caps else none
  | RE.star a, i, caps, k =>
    match reMStep s recur a i caps
        (fun j caps2 => if i < j then recur (RE.star a) j caps2 k else none) with
    | some r => some r
    | none => k i caps
  | RE.starL a, i, caps, k =>
    match k i caps with
    | some r => some r
    | none =>
      reMStep s recur a i caps
        (fun j caps2 => if i < j then recur (RE.starL a) j caps2 k else none)

/-- Fuel-indexed backtracking matcher.  Every repetition step consumes at
least one character, so fuel `s.length + 1` behaves as the unbounded
Python engine. -/
def reM (s : List Char) : Nat → RE → Nat → Caps → (Nat → Caps → Option Caps) → Option Caps
  | 0, _, _, _, _ => none
  | fuel + 1, re, i, caps, k => reMStep s (reM s fuel) re i caps k

/-- Python `[0-9]`. -/
def pyDigit (c : Char) : Bool := '0' ≤ c && c ≤ '9'

/-- Python `\s` (the whitespace characters relevant to ASCII decklists). -/
def pySpace (c : Char) : Bool :=
  c == ' ' || c == '\t' || c == '\n' || c == '\r' || c == '\x0b' || c == '\x0c'

/-- Python `\S`. -/
def pyNonSpace (c : Char) : Bool := !(pySpace c)

/-- Python `.` (anything but a newline). -/
def pyDot (c : Char) : Bool := c != '\n'

def reLit (c : Char) : RE := RE.cls (fun d => d == c)

/-- Greedy `+`. -/
def rePlus (a : RE) : RE := RE.cat a (RE.star a)

/-- Lazy `+?`. -/
def rePlusL (a : RE) : RE := RE.cat a (RE.starL a)

/-- Greedy `?`. -/
def reOpt (a : RE) : RE := RE.alt a RE.eps

/-- The optional `(?:\s+\((\S*)\)\s+(\S+))?` suffix with the given body for
the set-code group 3. -/
def suffixPart (setBody : RE) : RE :=
  reOpt (RE.cat (rePlus (RE.cls pySpace))
        (RE.cat (reLit '(')
        (RE.cat (RE.group 3 setBody)
        (RE.cat (reLit ')')
        (RE.cat (rePlus (RE.cls pySpace))
                (RE.group 4 (rePlus (RE.cls pyNonSpace))))))))

/-- The source pattern `([0-9]+)\s+(.+?)(?:\s+\((\S*)\)\s+(\S+))?\s*$`
(decklist.py line 123); note `(\S*)` for group 3. -/
def deckPattern : RE :=
  RE.cat (RE.group 1 (rePlus (RE.cls pyDigit)))
  (RE.cat (rePlus (RE.cls pySpace))
  (RE.cat (RE.group 2 (rePlusL (RE.cls pyDot)))
  (RE.cat (suffixPart (RE.star (RE.cls pyNonSpace)))
          (RE.cat (RE.star (RE.cls pySpace)) RE.eos))))

/-- The pattern of the spec regex contract, `(\S+)` for group 3; used (with
matching at position 0 only, the `^` anchor) for comparison with the source
behaviour. -/
def specDeckPattern : RE :=
  RE.cat (RE.group 1 (rePlus (RE.cls pyDigit)))
  (RE.cat (rePlus (RE.cls pySpace))
  (RE.cat (RE.group 2 (rePlusL (RE.cls pyDot)))
  (RE.cat (suffixPart (rePlus (RE.cls pyNonSpace)))
          (RE.cat (RE.star (RE.cls pySpace)) RE.eos))))

/-- Value of a digit string (`int(m.group(1))`). -/
def digitsVal (l : List Char) : Nat :=
  l.foldl (fun n c => n * 10 + (c.toNat - '0'.toNat)) 0

/-- Substring of `s` from `st` (inclusive) to `en` (exclusive). -/
def sliceStr (s : List Char) (st en : Nat) : String :=
  String.mk ((s.drop st).take (en - st))

/-- Text of capture group `n`, none when the group did not participate. -/
def capStr (caps : Caps) (n : Nat) (s : List Char) : Option String :=
  (caps.find? (fun g => g.1 == n)).map (fun g => sliceStr s g.2.1 g.2.2)

/-- A successful match of the decklist pattern: the extracted count, name
and optional set id and collector number. -/
structure RMatch where
  count : Nat
  name : String
  setId : Option String
  collNum : Option String
deriving DecidableEq, Repr

/-- Run a pattern at one start position. -/
def runPatternAt (s : List Char) (re : RE) (i : Nat) : Option Caps :=
  reM s (s.length + 1) re i [] (fun _ caps => some caps)

/-- Extract the four groups of the decklist pattern from the captures. -/
def extractMatch (s : List Char) (caps : Caps) : Option RMatch :=
  match capStr caps 1 s, capStr caps 2 s with
  | some g1, some g2 => some ⟨digitsVal g1.data, g2, capStr caps 3 s, capStr caps 4 s⟩
  | _, _ => none

/-- Model of `re.search(pattern, line)`: leftmost start position that matches. -/
def reSearch (line : String) : Option RMatch :=
  let s := line.data
  match (List.range (s.length + 1)).findSome? (fun i => runPatternAt s deckPattern i) with
  | none => none
  | some caps => extractMatch s caps

/-- The anchored spec-contract match: the pattern of the spec applied at the
start of the line only. -/
def anchoredSpecMatch (line : String) : Option RMatch :=
  let s := line.data
  match runPatternAt s specDeckPattern 0 with
  | none => none
  | some caps => extractMatch s caps

/-- Python `str.strip()`: drop whitespace at both ends. -/
def pyStrip (s : String) : String :=
  String.mk (((s.data.dropWhile pySpace).reverse.dropWhile pySpace).reverse)

/-- A decklist entry: a card with its count and resolved record, or a
comment line (decklist.py Card / Comment).  The resolved record type is
abstract (`γ`), as resolution happens in the external sanitizing
collaborator. -/
inductive Entry (γ : Type) where
  | card (count : Nat) (card : γ)
  | comment (text : String)
deriving DecidableEq, Repr

/-- Processing of one line of the stream (decklist.py lines 122-147):
`vName` models `validate_card_name` (returns the sanitized name or none),
`vPrint` models `validate_print` (always yields a resolved record).  The
returned flag is false exactly when the line matched the pattern but the
name failed sanitization. -/
def lineResult {γ : Type} (vName : String → Option String)
    (vPrint : String → Option String → Option String → γ) (line : String) :
    Entry γ × Bool :=
  match reSearch line with
  | none => (Entry.comment (pyStrip line), true)
  | some m =>
    match vName m.name with
    | none => (Entry.comment (pyStrip line), false)
    | some cname => (Entry.card m.count (vPrint cname m.setId m.collNum), true)

/-- Function `parse_decklist_stream` (decklist.py lines 114-148): fold the lines,
collecting entries and the overall success flag. -/
def parse_decklist_stream {γ : Type} (vName : String → Option String)
    (vPrint : String → Option String → Option String → γ) (lines : List String) :
    List (Entry γ) × Bool :=
  lines.foldl (fun acc line =>
    let r := lineResult vName vPrint line
    (acc.1 ++ [r.1], acc.2 && r.2)) ([], true)

/-- Modelled from the spec: the name-sanitizing collaborator
`validate_card_name` (mtgproxies/decklists/sanitizing.py, which is not part
of the sources here) maps recognized card names to canonical names and
signals an unrecognized name with none; modelled as lookup in a list of
canonical names. -/
def validate_card_name (canonical : List String) (cardName : String) : Option String :=
  if canonical.contains cardName then some cardName else none

/-- Modelled from the spec: `validate_print` (same missing collaborator)
always yields a resolved record for a sanitized name, falling back to the
best recommendation when the exact print is absent; modelled abstractly by
keeping the sanitized name as the record. -/
def cexPrint (cardName : String) (_setId _collNum : Option String) : String := cardName

lemma parse_decklist_stream_eq {γ : Type} (vName : String → Option String)
    (vPrint : String → Option String → Option String → γ) (lines : List String) :
    parse_decklist_stream vName vPrint lines =
      (lines.map (fun l => (lineResult vName vPrint l).1),
       lines.all (fun l => (lineResult vName vPrint l).2)) := by
  have key : ∀ (acc : List (Entry γ) × Bool),
      lines.foldl (fun acc line =>
        let r := lineResult vName vPrint line
        (acc.1 ++ [r.1], acc.2 && r.2)) acc =
      (acc.1 ++ lines.map (fun l => (lineResult vName vPrint l).1),
       acc.2 && lines.all (fun l => (lineResult vName vPrint l).2)) := by
    induction lines with
    | nil => intro acc; simp
    | cons l ls ih =>
      intro acc
      simp only [List.foldl_cons, ih, List.map_cons, List.all_cons]
      simp [Bool.and_assoc]
  simpa using key ([], true)

lemma lineResult_flag_false {γ : Type} (vName : String → Option String)
    (vPrint : String → Option String → Option String → γ) (l : String) :
    ((lineResult vName vPrint l).2 = false ↔
      ∃ m, reSearch l = some m ∧ vName m.name = none) := by
  unfold lineResult
  cases hm : reSearch l with
  | none => simp
  | some m =>
    cases hv : vName m.name with
    | none =>
      simp only [hv]
      exact ⟨fun _ => ⟨m, rfl, hv⟩, fun _ => trivial⟩
    | some c =>
      simp only [hv]
      refine ⟨fun h => Bool.noConfusion h, ?_⟩
      rintro ⟨m', hm', hv'⟩
      rw [Option.some_inj] at hm'
      subst hm'
      rw [hv] at hv'
      cases hv'

/-- C6: the parse of a stream returns success = false exactly when some line
matched the pattern but its name failed sanitization; a non-matching line
becomes a Comment entry with the trimmed line text (with the success flag
untouched), and every line contributes exactly one entry, so parsing
continues after failures.  The sanitizer `vName` and resolver `vPrint` are
arbitrary. -/
theorem parse_success_iff_no_sanitization_failure {γ : Type}
    (vName : String → Option String)
    (vPrint : String → Option String → Option String → γ) (lines : List String) :
    ((parse_decklist_stream vName vPrint lines).2 = false ↔
      ∃ l ∈ lines, ∃ m, reSearch l = some m ∧ vName m.name = none)
    ∧ (∀ l, reSearch l = none →
        lineResult vName vPrint l = (Entry.comment (pyStrip l), true))
    ∧ (parse_decklist_stream vName vPrint lines).1.length = lines.length := by
  rw [parse_decklist_stream_eq]
  refine ⟨?_, ?_, by simp⟩
  · rw [List.all_eq_false]
    constructor
    · rintro ⟨l, hl, hflag⟩
      exact ⟨l, hl, (lineResult_flag_false vName vPrint l).mp
        (Bool.not_eq_true _ ▸ eq_false_of_ne_true hflag)⟩
    · rintro ⟨l, hl, hm⟩
      refine ⟨l, hl, ?_⟩
      rw [(lineResult_flag_false vName vPrint l).mpr hm]
      simp
  · intro l h
    unfold lineResult
    rw [h]

/-- Witness for C6: a line with no match becomes a Comment entry carrying
the trimmed text and leaves the flag true. -/
theorem parse_success_iff_no_sanitization_failure_witness :
    lineResult (validate_card_name ["Blood Crypt"]) cexPrint "// sideboard"
      = (Entry.comment (pyStrip "// sideboard"), true)
    ∧ pyStrip "// sideboard" = "// sideboard" :=
  ⟨(parse_success_iff_no_sanitization_failure (validate_card_name ["Blood Crypt"])
      cexPrint ["// sideboard"]).2.1 "// sideboard" (by decide), by decide⟩

/-- Counterexample for C7: the digit group accepts "0", so the line
"0 Island" produces a Card entry with count 0 (under the spec-modelled
sanitizer that recognizes the name Island). -/
theorem parser_emits_count_zero :
    (parse_decklist_stream (validate_card_name ["Island"]) cexPrint ["0 Island"]).1
      = [Entry.card 0 "Island"] := by decide

/-- C7 (amended): every Card entry of a parse carries the numeric value of
the digit group of a line of the stream (hence a nonnegative count, with
count 0 possible), with the record resolved from the sanitized name;
malformed lines become Comment entries. -/
theorem card_counts_from_digit_group {γ : Type} (vName : String → Option String)
    (vPrint : String → Option String → Option String → γ) (lines : List String)
    (n : Nat) (c : γ)
    (h : Entry.card n c ∈ (parse_decklist_stream vName vPrint lines).1) :
    ∃ l ∈ lines, ∃ m, reSearch l = some m ∧ m.count = n
      ∧ ∃ cn, vName m.name = some cn ∧ c = vPrint cn m.setId m.collNum := by
  rw [parse_decklist_stream_eq] at h
  simp only [List.mem_map] at h
  obtain ⟨l, hl, he⟩ := h
  refine ⟨l, hl, ?_⟩
  unfold lineResult at he
  cases hm : reSearch l with
  | none => simp [hm] at he
  | some m =>
    simp only [hm] at he
    cases hv : vName m.name with
    | none => simp [hv] at he
    | some cn =>
      simp only [hv, Entry.card.injEq] at he
      exact ⟨m, rfl, he.1, cn, hv, he.2.symm⟩

/-- Witness for C7 (amended): the count 4 of the parsed card entry for
"4 Island" comes from the digit group of that line. -/
theorem card_counts_from_digit_group_witness :
    ∃ l ∈ ["4 Island"], ∃ m, reSearch l = some m ∧ m.count = 4
      ∧ ∃ cn, validate_card_name ["Island"] m.name = some cn
        ∧ "Island" = cexPrint cn m.setId m.collNum :=
  card_counts_from_digit_group (validate_card_name ["Island"]) cexPrint ["4 Island"]
    4 "Island" (by decide)

/-- Counterexample for C8: the source uses re.search without an anchor, so
the line "x 4 Blood Crypt", which does not begin with a count and does not
match the anchored spec pattern, is still treated as a card line. -/
theorem unanchored_search_vs_anchored_spec :
    (reSearch "x 4 Blood Crypt").isSome = true
    ∧ anchoredSpecMatch "x 4 Blood Crypt" = none
    ∧ (lineResult (validate_card_name ["Blood Crypt"]) cexPrint "x 4 Blood Crypt").1
        = Entry.card 4 "Blood Crypt" := by
  refine ⟨by decide, by decide, by decide⟩

/-- C8 (amended): a line is treated as a card line exactly when re.search
finds a (possibly non-initial) match of the unanchored source pattern with
`(\S*)` as the set group; groups 1-4 give count, non-greedy name, optional
set and collector number, and "4 Blood Crypt (RNA) 245" extracts
count 4, name "Blood Crypt", set "RNA", number "245"; any line with no
match is preserved as a comment. -/
theorem line_treated_as_card_iff_search {γ : Type} (vName : String → Option String)
    (vPrint : String → Option String → Option String → γ) (l : String) :
    (reSearch l = none → lineResult vName vPrint l = (Entry.comment (pyStrip l), true))
    ∧ (∀ m, reSearch l = some m →
        lineResult vName vPrint l =
          (match vName m.name with
           | none => (Entry.comment (pyStrip l), false)
           | some cn => (Entry.card m.count (vPrint cn m.setId m.collNum), true)))
    ∧ reSearch "4 Blood Crypt (RNA) 245"
        = some ⟨4, "Blood Crypt", some "RNA", some "245"⟩ := by
  refine ⟨?_, ?_, by decide⟩
  · intro h
    unfold lineResult
    rw [h]
  · intro m h
    unfold lineResult
    rw [h]

/-- Witness for C8 (amended): a line without digits is no card line, and the
Blood Crypt example extracts as stated. -/
theorem line_treated_as_card_iff_search_witness :
    lineResult (validate_card_name []) cexPrint "SIDEBOARD:"
      = (Entry.comment (pyStrip "SIDEBOARD:"), true)
    ∧ reSearch "4 Blood Crypt (RNA) 245"
        = some ⟨4, "Blood Crypt", some "RNA", some "245"⟩ :=
  ⟨(line_treated_as_card_iff_search (validate_card_name []) cexPrint "SIDEBOARD:").1
      (by decide),
   (line_treated_as_card_iff_search (validate_card_name []) cexPrint "SIDEBOARD:").2.2⟩

/-! ## Decklist formatting (decklist.py Card.__format__, Comment.__format__,
Decklist.__format__) -/

/-- Python `"\n".join` (`os.linesep` on the POSIX systems the tool targets). -/
def joinSep : List String → String
  | [] => ""
  | [x] => x
  | x :: xs => x ++ "\n" ++ joinSep xs

/-- Method `Card.__format__` (decklist.py lines 36-41): "text" and "arena" formats,
anything else raises ValueError (modelled by `Except.error`). -/
def formatCard (count : Nat) (c : CardRec) (fmtSpec : String) : Except Unit String :=
  if fmtSpec = "text" then Except.ok (toString count ++ " " ++ c.name)
  else if fmtSpec = "arena" then
    Except.ok (toString count ++ " " ++ c.name ++ " (" ++ strUpper c.set ++ ") "
      ++ c.collector_number)
  else Except.error ()

/-- Method `Comment.__format__` (decklist.py lines 49-50): the stored text, for any
format spec. -/
def formatComment (text : String) (_fmtSpec : String) : String := text

def formatEntry (e : Entry CardRec) (fmtSpec : String) : Except Unit String :=
  match e with
  | Entry.card n c => formatCard n c fmtSpec
  | Entry.comment t => Except.ok (formatComment t fmtSpec)

/-- The entry-by-entry formatting inside `Decklist.__format__`; the first
raising entry aborts the whole call. -/
def mapFormat (fmtSpec : String) : List (Entry CardRec) → Except Unit (List String)
  | [] => Except.ok []
  | e :: es =>
    match formatEntry e fmtSpec, mapFormat fmtSpec es with
    | Except.ok s, Except.ok rest => Except.ok (s :: rest)
    | Except.error u, _ => Except.error u
    | _, Except.error u => Except.error u

/-- Method `Decklist.__format__` (decklist.py lines 76-77). -/
def formatDecklist (entries : List (Entry CardRec)) (fmtSpec : String) :
    Except Unit String :=
  match mapFormat fmtSpec entries with
  | Except.ok ss => Except.ok (joinSep ss)
  | Except.error u => Except.error u

lemma mapFormat_comments (fmtSpec : String) {entries : List (Entry CardRec)}
    (hall : ∀ e ∈ entries, ∃ u, e = Entry.comment u) :
    ∃ ss, mapFormat fmtSpec entries = Except.ok ss := by
  induction entries with
  | nil => exact ⟨[], rfl⟩
  | cons e es ih =>
    obtain ⟨u, hu⟩ := hall e (List.mem_cons_self e es)
    obtain ⟨ss, hss⟩ := ih (fun x hx => hall x (List.mem_cons_of_mem e hx))
    subst hu
    exact ⟨u :: ss, by simp [mapFormat, formatEntry, formatComment, hss]⟩

lemma mapFormat_error_card {fmtSpec : String} {entries : List (Entry CardRec)}
    (h : mapFormat fmtSpec entries = Except.error ()) :
    ∃ n c, Entry.card n c ∈ entries ∧ fmtSpec ≠ "text" ∧ fmtSpec ≠ "arena" := by
  induction entries with
  | nil => cases h
  | cons e es ih =>
    cases e with
    | comment t =>
      simp only [mapFormat, formatEntry] at h
      cases hm : mapFormat fmtSpec es with
      | ok ss => rw [hm] at h; cases h
      | error u =>
        rw [hm] at h
        obtain ⟨n, c, hmem, hs⟩ := ih (by rw [hm])
        exact ⟨n, c, List.mem_cons_of_mem _ hmem, hs⟩
    | card n c =>
      by_cases ht : fmtSpec = "text"
      · simp only [mapFormat, formatEntry, formatCard, if_pos ht] at h
        cases hm : mapFormat fmtSpec es with
        | ok ss => rw [hm] at h; cases h
        | error u =>
          rw [hm] at h
          obtain ⟨n', c', hmem, hs⟩ := ih (by rw [hm])
          exact ⟨n', c', List.mem_cons_of_mem _ hmem, hs⟩
      · by_cases ha : fmtSpec = "arena"
        · simp only [mapFormat, formatEntry, formatCard, if_neg ht, if_pos ha] at h
          cases hm : mapFormat fmtSpec es with
          | ok ss => rw [hm] at h; cases h
          | error u =>
            rw [hm] at h
            obtain ⟨n', c', hmem, hs⟩ := ih (by rw [hm])
            exact ⟨n', c', List.mem_cons_of_mem _ hmem, hs⟩
        · exact ⟨n, c, List.mem_cons_self _ _, ht, ha⟩

/-- C10: formatting a Comment entry returns its stored text verbatim for
every format spec; a decklist of only Comment entries formats without any
error, and an unknown-format error of the decklist formatter can only
originate from a Card entry (with a spec that is neither "text" nor
"arena"). -/
theorem comment_format_verbatim (t fmtSpec : String) (entries : List (Entry CardRec))
    (hall : ∀ e ∈ entries, ∃ u, e = Entry.comment u) :
    formatEntry (Entry.comment t) fmtSpec = Except.ok t
    ∧ (∃ out, formatDecklist entries fmtSpec = Except.ok out)
    ∧ (∀ es : List (Entry CardRec), formatDecklist es fmtSpec = Except.error () →
        ∃ n c, Entry.card n c ∈ es ∧ fmtSpec ≠ "text" ∧ fmtSpec ≠ "arena") := by
  refine ⟨rfl, ?_, ?_⟩
  · obtain ⟨ss, hss⟩ := mapFormat_comments fmtSpec hall
    exact ⟨joinSep ss, by simp [formatDecklist, hss]⟩
  · intro es h
    unfold formatDecklist at h
    cases hm : mapFormat fmtSpec es with
    | ok ss => simp [hm] at h
    | error u =>
      cases u
      exact mapFormat_error_card hm

/-- Witness for C10: a comment-only decklist formats under an unsupported
spec without error. -/
theorem comment_format_verbatim_witness :
    formatEntry (Entry.comment "// sideboard") "weird" = Except.ok "// sideboard"
    ∧ (∃ out, formatDecklist [Entry.comment "a", Entry.comment "b"] "weird"
        = Except.ok out) :=
  have h := comment_format_verbatim "// sideboard" "weird"
    [Entry.comment "a", Entry.comment "b"]
    (by
      intro e he
      simp only [List.mem_cons, List.not_mem_nil, or_false] at he
      rcases he with rfl | rfl
      · exact ⟨"a", rfl⟩
      · exact ⟨"b", rfl⟩)
  ⟨h.1, h.2.1⟩
